import Mathlib

/-!
Shallow embedding of the `CircularBuffer` ring buffer
(`src/include/circularBuffer.hpp`).

The C++ class owns a contiguous block of `capacity + 1` slots (one sentinel
slot) and two pointers `m_head` / `m_tail` into that block.  We model the
block as a `List α` and the two cursors as `Nat` indices into the list, so
pointer arithmetic `p - bufferBegin()` becomes the index itself and
`bufferEnd()` becomes `buf.length`.
-/

namespace CircBuf

/-- State of `CircularBuffer<T>`: the storage block (`m_buffer`, a block of
`capacity + 1` slots) together with the cursors `m_head` and `m_tail`,
stored as indices into the block (pointer = bufferBegin + index). -/
structure CircularBuffer (α : Type) where
  buf  : List α
  head : Nat
  tail : Nat
  deriving Repr, DecidableEq

namespace CircularBuffer

variable {α : Type}

/-- The sized constructor: `m_buffer` gets `capacity + 1` value-initialized
slots (`make(capacity + 1)`), and `m_head = m_tail = bufferBegin()`. -/
def mkBuffer (d : α) (capacity : Nat) : CircularBuffer α :=
  { buf := List.replicate (capacity + 1) d, head := 0, tail := 0 }

/-- `size()`: `m_tail >= m_head ? (m_tail - m_head)
: (bufferEnd() - m_head) + (m_tail - bufferBegin())`. -/
def size (b : CircularBuffer α) : Nat :=
  if b.head ≤ b.tail then b.tail - b.head
  else (b.buf.length - b.head) + b.tail

/-- `empty()`: `m_tail == m_head`. -/
def empty (b : CircularBuffer α) : Bool :=
  b.tail == b.head

/-- `shiftFront()`: `if (++m_head == bufferEnd()) m_head = bufferBegin();`. -/
def shiftFront (b : CircularBuffer α) : CircularBuffer α :=
  { b with head := if b.head + 1 = b.buf.length then 0 else b.head + 1 }

/-- `pushBack(value)`: write through `m_tail`, advance `m_tail` with wrap at
`bufferEnd()`, and call `shiftFront()` when the advanced tail collides with
`m_head` (overflow). -/
def pushBack (b : CircularBuffer α) (v : α) : CircularBuffer α :=
  let b1 : CircularBuffer α := { b with buf := b.buf.set b.tail v }
  let b2 : CircularBuffer α :=
    { b1 with tail := if b1.tail + 1 = b1.buf.length then 0 else b1.tail + 1 }
  if b2.tail = b2.head then b2.shiftFront else b2

/-- `popFront()`: `if (!empty() && ++m_head == bufferEnd())
m_head = bufferBegin();` — when not empty the head advances (wrapping),
otherwise nothing happens. -/
def popFront (b : CircularBuffer α) : CircularBuffer α :=
  if b.empty then b
  else { b with head := if b.head + 1 = b.buf.length then 0 else b.head + 1 }

/-- `front()`: `*begin()`, i.e. the element at `m_head`. -/
def front [Inhabited α] (b : CircularBuffer α) : α :=
  b.buf.getD b.head default

/-- One step of the iterator `operator++` on a position inside a block of
`n` slots: `if (++m_current == m_bufferEnd) m_current = m_bufferBegin;`. -/
def iterNext (n pos : Nat) : Nat :=
  if pos + 1 = n then 0 else pos + 1

/-- One step of the iterator `operator--` on a position inside a block of
`n` slots: `if (--m_current < m_bufferBegin) m_current = prev(m_bufferEnd);`
(at index 0 the decrement would leave the block, so it wraps to `n - 1`). -/
def iterPrev (n pos : Nat) : Nat :=
  if pos = 0 then n - 1 else pos - 1

/-- `back()`: `*prev(end())`, i.e. the element one iterator-step before
`m_tail` (with wrap handled by the iterator `operator--`). -/
def back [Inhabited α] (b : CircularBuffer α) : α :=
  b.buf.getD (iterPrev b.buf.length b.tail) default

/-- The forward C++ iteration loop `for (it = pos; it != stop; ++it)`
collecting the dereferenced elements; `fuel` bounds the number of steps
(one block length always suffices for the loops the class produces). -/
def iterFrom [Inhabited α] (buf : List α) (stop pos fuel : Nat) : List α :=
  match fuel with
  | 0 => []
  | fuel + 1 =>
    if pos = stop then []
    else buf.getD pos default :: iterFrom buf stop (iterNext buf.length pos) fuel

/-- The backward C++ iteration loop `for (it = pos; it != stop; ) { --it;
visit(*it); }` collecting the dereferenced elements. -/
def iterBack [Inhabited α] (buf : List α) (stop pos fuel : Nat) : List α :=
  match fuel with
  | 0 => []
  | fuel + 1 =>
    if pos = stop then []
    else
      buf.getD (iterPrev buf.length pos) default ::
        iterBack buf stop (iterPrev buf.length pos) fuel

/-- Forward iteration over the whole buffer, `begin()` (at `m_head`) up to
`end()` (at `m_tail`). -/
def iterFromList [Inhabited α] (b : CircularBuffer α) : List α :=
  iterFrom b.buf b.tail b.head b.buf.length

/-- Backward iteration over the whole buffer, from `end()` (at `m_tail`)
back to `begin()` (at `m_head`); elements are listed in visiting order
(newest first). -/
def iterBackList [Inhabited α] (b : CircularBuffer α) : List α :=
  iterBack b.buf b.head b.tail b.buf.length

/-- `findNthRecent(requestedCount)`: clamp the count to `size()`, step the
tail pointer back by that many slots, and wrap through the block start if
the pointer subtraction went negative (`startIndex < 0`). Returns the index
the produced iterator points at. -/
def findNthRecent (b : CircularBuffer α) (requestedCount : Nat) : Nat :=
  let r := min requestedCount b.size
  let startIndex : Int := (b.tail : Int) - (r : Int)
  (if startIndex < 0 then (b.buf.length : Int) + startIndex else startIndex).toNat

/-- `mostRecent(count)`: the range `[findNthRecent(count), end())`, read off
by the forward iteration loop. -/
def mostRecentList [Inhabited α] (b : CircularBuffer α) (count : Nat) : List α :=
  iterFrom b.buf b.tail (b.findNthRecent count) b.buf.length

/-- Validity of the cursors: both point into `[bufferBegin, bufferEnd)`. -/
def Inv (b : CircularBuffer α) : Prop :=
  b.head < b.buf.length ∧ b.tail < b.buf.length

instance (b : CircularBuffer α) : Decidable b.Inv := by
  unfold Inv; infer_instance

/-- Forward wrapping distance between two positions in a block of `n`
slots: the number of `operator++` steps from `a` to `b`. -/
def wrapDist (n a b : Nat) : Nat :=
  if a ≤ b then b - a else n + b - a

/-- The sequence of live elements, oldest to newest: slot `(head + i) % n`
for `i < size`.  This is the abstraction the iteration loops realize. -/
def absList [Inhabited α] (b : CircularBuffer α) : List α :=
  (List.range b.size).map (fun i => b.buf.getD ((b.head + i) % b.buf.length) default)

/-- A mutation step a caller can apply to the buffer. -/
inductive Op (α : Type) where
  | push (v : α)
  | pop
  deriving Repr

/-- Apply one `Op`. -/
def applyOp (b : CircularBuffer α) (op : Op α) : CircularBuffer α :=
  match op with
  | .push v => b.pushBack v
  | .pop => b.popFront

/-- Apply a sequence of operations, oldest first. -/
def applyOps (b : CircularBuffer α) (ops : List (Op α)) : CircularBuffer α :=
  ops.foldl applyOp b

/-- Push a list of values in order. -/
def pushMany (b : CircularBuffer α) (vs : List α) : CircularBuffer α :=
  vs.foldl pushBack b

/-- Model-level push on the abstract element list: append, and drop the
oldest element when the buffer was already at capacity. -/
def mpush (cap : Nat) (l : List α) (v : α) : List α :=
  if l.length = cap then (l ++ [v]).drop 1 else l ++ [v]

/-- Model-level fold of a push sequence. -/
def mpushMany (cap : Nat) (l : List α) (vs : List α) : List α :=
  vs.foldl (mpush cap) l

/-- The last `cap` elements of a list. -/
def lastN (cap : Nat) (l : List α) : List α :=
  l.drop (l.length - cap)

/-- The copy constructor: `m_buffer(other.m_buffer)` copies the block,
and the cursors are rebuilt as `bufferBegin() + getIndex(other, cursor)`,
i.e. the same offsets into the fresh block. -/
def copyCtor (other : CircularBuffer α) : CircularBuffer α :=
  { buf := other.buf, head := other.head, tail := other.tail }

/-- Move assignment `dst = std::move(src)` between two distinct objects:
record both objects' cursor displacements, swap the storage blocks, then
re-apply each displacement set onto the block its object now holds.
Returns the new `(dst, src)` pair. -/
def moveAssign (dst src : CircularBuffer α) : CircularBuffer α × CircularBuffer α :=
  let mineHead := dst.head
  let mineTail := dst.tail
  let theirHead := src.head
  let theirTail := src.tail
  let dst1 : CircularBuffer α := { dst with buf := src.buf }
  let src1 : CircularBuffer α := { src with buf := dst.buf }
  let src2 : CircularBuffer α := { src1 with head := mineHead, tail := mineTail }
  let dst2 : CircularBuffer α := { dst1 with head := theirHead, tail := theirTail }
  (dst2, src2)

/-- `b = std::move(b)`: the move-assignment body executed with `this` and
`temporary` aliased to the same object — the displacement records are both
taken from `b`, the swap exchanges the storage with itself, and both
`applyTo` calls write onto the one object in sequence. -/
def selfMoveAssign (b : CircularBuffer α) : CircularBuffer α :=
  let mineHead := b.head
  let mineTail := b.tail
  let theirHead := b.head
  let theirTail := b.tail
  let b1 : CircularBuffer α := b
  let b2 : CircularBuffer α := { b1 with head := mineHead, tail := mineTail }
  let b3 : CircularBuffer α := { b2 with head := theirHead, tail := theirTail }
  b3

/-- `b = b` (copy assignment with the source aliased to `this`):
`CircularBuffer newBuffer = copy;` then `*this = std::move(newBuffer)` —
the temporary is a distinct object, so the two-object move applies. -/
def selfCopyAssign (b : CircularBuffer α) : CircularBuffer α :=
  let newBuffer := copyCtor b
  (moveAssign b newBuffer).1

end CircularBuffer

/-- `CircularBuffer::IteratorImpl`: the block bounds captured at creation
time plus the current position, all modelled as pointer values (integers),
so the `--m_current < m_bufferBegin` comparison is the signed one the
source performs. -/
structure IteratorImpl where
  bufferBegin : Int
  bufferEnd   : Int
  current     : Int
  deriving Repr, DecidableEq

namespace IteratorImpl

/-- `operator++`: `if (++m_current == m_bufferEnd) m_current = m_bufferBegin;`. -/
def inc (it : IteratorImpl) : IteratorImpl :=
  let c := it.current + 1
  if c = it.bufferEnd then { it with current := it.bufferBegin }
  else { it with current := c }

/-- `operator--`: `if (--m_current < m_bufferBegin)
m_current = std::prev(m_bufferEnd);`. -/
def dec (it : IteratorImpl) : IteratorImpl :=
  let c := it.current - 1
  if c < it.bufferBegin then { it with current := it.bufferEnd - 1 }
  else { it with current := c }

end IteratorImpl

namespace CircularBuffer

/-- A buffer whose storage block lives in a heap of blocks: the handle
holds the block id and the two cursor offsets.  This models the fact that
each `CircularBuffer` object owns its own storage block, so that copy
independence is about distinct blocks rather than a vacuous value fact. -/
structure HBuf where
  block : Nat
  head  : Nat
  tail  : Nat
  deriving Repr, DecidableEq

/-- Read a handle's buffer value out of the heap. -/
def heapGet (heap : List (List α)) (hb : HBuf) : CircularBuffer α :=
  { buf := heap.getD hb.block [], head := hb.head, tail := hb.tail }

/-- Apply one mutation through a handle: run the operation on the owned
block and store the updated block back at the same id. -/
def heapApplyOp (s : List (List α) × HBuf) (op : Op α) : List (List α) × HBuf :=
  let cb := heapGet s.1 s.2
  let cb2 := applyOp cb op
  (s.1.set s.2.block cb2.buf, { s.2 with head := cb2.head, tail := cb2.tail })

/-- Apply a sequence of mutations through a handle. -/
def heapApplyOps (s : List (List α) × HBuf) (ops : List (Op α)) :
    List (List α) × HBuf :=
  ops.foldl heapApplyOp s

/-- The copy constructor at the heap level: allocate a fresh block holding
a copy of the source block (`m_buffer(other.m_buffer)`), and rebuild the
cursors at the same offsets into the new block. -/
def heapCopy (heap : List (List α)) (src : HBuf) : List (List α) × HBuf :=
  (heap ++ [heap.getD src.block []],
   { block := heap.length, head := src.head, tail := src.tail })

/-! ### Arithmetic helper lemmas -/

theorem wrapDist_self (n a : Nat) : wrapDist n a a = 0 := by
  simp [wrapDist]

theorem wrapDist_lt {n a b : Nat} (hb : b < n) : wrapDist n a b < n := by
  unfold wrapDist; split <;> omega

theorem wrapDist_pos {n a b : Nat} (ha : a < n) (hne : a ≠ b) :
    0 < wrapDist n a b := by
  unfold wrapDist; split <;> omega

theorem iterNext_lt {n pos : Nat} (h : pos < n) : iterNext n pos < n := by
  unfold iterNext; split <;> omega

theorem iterPrev_lt {n pos : Nat} (h : pos < n) : iterPrev n pos < n := by
  unfold iterPrev; split <;> omega

theorem iterNext_eq_mod {n pos : Nat} (h : pos < n) :
    iterNext n pos = (pos + 1) % n := by
  unfold iterNext; split
  · rename_i h1; rw [h1, Nat.mod_self]
  · rename_i h1; rw [Nat.mod_eq_of_lt (by omega)]

theorem wrapDist_iterNext {n a b : Nat} (ha : a < n) (hb : b < n) (hne : a ≠ b) :
    wrapDist n (iterNext n a) b = wrapDist n a b - 1 := by
  unfold wrapDist iterNext; split <;> split <;> split <;> omega

theorem wrapDist_iterPrev {n a b : Nat} (ha : a < n) (hb : b < n) (hne : a ≠ b) :
    wrapDist n a (iterPrev n b) = wrapDist n a b - 1 := by
  unfold wrapDist iterPrev; split <;> split <;> split <;> omega

theorem eq_add_wrapDist_mod {n a b : Nat} (ha : a < n) (hb : b < n) :
    b = (a + wrapDist n a b) % n := by
  unfold wrapDist; split
  · have h1 : a + (b - a) = b := by omega
    rw [h1, Nat.mod_eq_of_lt hb]
  · have h1 : a + (n + b - a) = n + b := by omega
    rw [h1, Nat.add_mod_left, Nat.mod_eq_of_lt hb]

theorem add_mod_inj {n a x y : Nat} (hx : x < n) (hy : y < n)
    (h : (a + x) % n = (a + y) % n) : x = y := by
  have h2 : x ≡ y [MOD n] := Nat.ModEq.add_left_cancel' a h
  unfold Nat.ModEq at h2
  rwa [Nat.mod_eq_of_lt hx, Nat.mod_eq_of_lt hy] at h2

theorem size_eq_wrapDist {α : Type} (b : CircularBuffer α)
    (h : b.head ≤ b.buf.length) :
    b.size = wrapDist b.buf.length b.head b.tail := by
  unfold size wrapDist; split <;> omega

/-- The advanced tail collides with the head exactly when the buffer held
`capacity` (= block length minus one) elements. -/
theorem iterNext_eq_head_iff {n h t : Nat} (hh : h < n) (ht : t < n) :
    iterNext n t = h ↔ wrapDist n h t = n - 1 := by
  unfold iterNext wrapDist; split <;> split <;> omega

/-- Advancing the tail without collision grows the head-to-tail distance
by one. -/
theorem wrapDist_tail_step {n h t : Nat} (hh : h < n) (ht : t < n)
    (hne : iterNext n t ≠ h) :
    wrapDist n h (iterNext n t) = wrapDist n h t + 1 := by
  simp only [wrapDist, iterNext] at hne ⊢
  split_ifs at hne ⊢ <;> omega

/-- After the head is shifted past the colliding tail the distance is a
full window again. -/
theorem wrapDist_shiftFront {n h : Nat} (hh : h < n) :
    wrapDist n (iterNext n h) h = n - 1 := by
  unfold wrapDist iterNext; split <;> split <;> omega

/-! ### List helper lemmas -/

theorem getD_set_self {α : Type} (l : List α) {i : Nat} (a d : α)
    (h : i < l.length) : (l.set i a).getD i d = a := by
  rw [List.getD_eq_getElem?_getD, List.getElem?_set_self',
    List.getElem?_eq_getElem h]
  rfl

theorem getD_set_ne {α : Type} (l : List α) {i j : Nat} (hij : i ≠ j)
    (a d : α) : (l.set i a).getD j d = l.getD j d := by
  rw [List.getD_eq_getElem?_getD, List.getElem?_set_ne hij,
    ← List.getD_eq_getElem?_getD]

theorem map_range_drop {β : Type} (f : Nat → β) (s j : Nat) (hj : j ≤ s) :
    ((List.range s).map f).drop j = (List.range (s - j)).map (fun i => f (j + i)) := by
  apply List.ext_getElem
  · simp only [List.length_drop, List.length_map, List.length_range]
  · intro i h1 h2
    simp only [List.getElem_drop, List.getElem_map, List.getElem_range]

/-! ### Characterizing the iteration loops -/

/-- The forward iteration loop from `pos` to `stop` visits exactly the
slots `(pos + i) % n` for `i` below the wrapping distance. -/
theorem iterFrom_eq {α : Type} [Inhabited α] (buf : List α) (stop : Nat)
    (hstop : stop < buf.length) :
    ∀ (fuel pos : Nat), pos < buf.length →
      wrapDist buf.length pos stop ≤ fuel →
      iterFrom buf stop pos fuel =
        (List.range (wrapDist buf.length pos stop)).map
          (fun i => buf.getD ((pos + i) % buf.length) default)
  | 0, pos, hpos, hfuel => by
      have h0 : wrapDist buf.length pos stop = 0 := by omega
      rw [h0]
      simp [iterFrom]
  | (fuel + 1), pos, hpos, hfuel => by
      by_cases heq : pos = stop
      · subst heq
        rw [wrapDist_self]
        simp [iterFrom]
      · have hd0 : 0 < wrapDist buf.length pos stop := wrapDist_pos hpos heq
        obtain ⟨d, hd⟩ : ∃ d, wrapDist buf.length pos stop = d + 1 :=
          ⟨wrapDist buf.length pos stop - 1, by omega⟩
        have hpos' : iterNext buf.length pos < buf.length := iterNext_lt hpos
        have hd' : wrapDist buf.length (iterNext buf.length pos) stop = d := by
          rw [wrapDist_iterNext hpos hstop heq, hd]
          omega
        have ih := iterFrom_eq buf stop hstop fuel (iterNext buf.length pos)
          hpos' (by omega)
        rw [iterFrom]
        simp only [if_neg heq]
        rw [ih, hd', hd, List.range_succ_eq_map, List.map_cons, List.map_map]
        congr 1
        · rw [Nat.add_zero, Nat.mod_eq_of_lt hpos]
        · apply List.map_congr_left
          intro i hi
          simp only [Function.comp_apply]
          rw [iterNext_eq_mod hpos, Nat.mod_add_mod]
          have h2 : pos + 1 + i = pos + i.succ := by omega
          rw [h2]

/-- The backward iteration loop from `pos` down to `stop` visits the same
slots in the reversed order. -/
theorem iterBack_eq {α : Type} [Inhabited α] (buf : List α) (stop : Nat)
    (hstop : stop < buf.length) :
    ∀ (fuel pos : Nat), pos < buf.length →
      wrapDist buf.length stop pos ≤ fuel →
      iterBack buf stop pos fuel =
        ((List.range (wrapDist buf.length stop pos)).map
          (fun i => buf.getD ((stop + i) % buf.length) default)).reverse
  | 0, pos, hpos, hfuel => by
      have h0 : wrapDist buf.length stop pos = 0 := by omega
      rw [h0]
      simp [iterBack]
  | (fuel + 1), pos, hpos, hfuel => by
      by_cases heq : pos = stop
      · subst heq
        rw [wrapDist_self]
        simp [iterBack]
      · have hd0 : 0 < wrapDist buf.length stop pos :=
          wrapDist_pos hstop (Ne.symm heq)
        obtain ⟨d, hd⟩ : ∃ d, wrapDist buf.length stop pos = d + 1 :=
          ⟨wrapDist buf.length stop pos - 1, by omega⟩
        have hp : iterPrev buf.length pos < buf.length := iterPrev_lt hpos
        have hd' : wrapDist buf.length stop (iterPrev buf.length pos) = d := by
          rw [wrapDist_iterPrev hstop hpos (Ne.symm heq), hd]
          omega
        have hpEq : iterPrev buf.length pos = (stop + d) % buf.length := by
          have h1 := eq_add_wrapDist_mod hstop hp
          rwa [hd'] at h1
        have ih := iterBack_eq buf stop hstop fuel (iterPrev buf.length pos)
          hp (by omega)
        rw [iterBack]
        simp only [if_neg heq]
        rw [ih, hd', hd, List.range_succ, List.map_append, List.reverse_append,
          List.map_cons, List.map_nil, List.reverse_cons, List.reverse_nil,
          List.nil_append, List.singleton_append]
        congr 1
        rw [hpEq]

/-- Under valid cursors, walking `begin()` to `end()` produces exactly the
abstract oldest-to-newest element list. -/
theorem iterFromList_eq_absList {α : Type} [Inhabited α]
    (b : CircularBuffer α) (hb : b.Inv) : b.iterFromList = b.absList := by
  obtain ⟨hh, ht⟩ := hb
  unfold iterFromList absList
  rw [iterFrom_eq b.buf b.tail ht b.buf.length b.head hh
    (Nat.le_of_lt (wrapDist_lt ht))]
  rw [size_eq_wrapDist b (Nat.le_of_lt hh)]

/-- Under valid cursors, walking `end()` back to `begin()` produces the
reverse of the forward walk. -/
theorem iterBackList_eq_reverse {α : Type} [Inhabited α]
    (b : CircularBuffer α) (hb : b.Inv) :
    b.iterBackList = b.iterFromList.reverse := by
  obtain ⟨hh, ht⟩ := hb
  unfold iterBackList iterFromList
  rw [iterBack_eq b.buf b.head hh b.buf.length b.tail ht
    (Nat.le_of_lt (wrapDist_lt ht))]
  rw [iterFrom_eq b.buf b.tail ht b.buf.length b.head hh
    (Nat.le_of_lt (wrapDist_lt ht))]

/-- The abstract list has `size()` elements. -/
theorem length_absList {α : Type} [Inhabited α] (b : CircularBuffer α) :
    b.absList.length = b.size := by
  simp [absList]

/-! ### Structure of `pushBack` and `popFront` -/

theorem pushBack_eq {α : Type} (b : CircularBuffer α) (v : α) :
    b.pushBack v =
      if iterNext b.buf.length b.tail = b.head then
        { buf := b.buf.set b.tail v, head := iterNext b.buf.length b.head,
          tail := iterNext b.buf.length b.tail }
      else
        { buf := b.buf.set b.tail v, head := b.head,
          tail := iterNext b.buf.length b.tail } := by
  unfold pushBack shiftFront iterNext
  simp only [List.length_set]

theorem popFront_eq {α : Type} (b : CircularBuffer α) :
    b.popFront =
      if b.tail = b.head then b
      else { b with head := iterNext b.buf.length b.head } := by
  unfold popFront empty iterNext
  simp only [beq_iff_eq]

theorem buf_pushBack {α : Type} (b : CircularBuffer α) (v : α) :
    (b.pushBack v).buf = b.buf.set b.tail v := by
  rw [pushBack_eq]; split <;> rfl

theorem tail_pushBack {α : Type} (b : CircularBuffer α) (v : α) :
    (b.pushBack v).tail = iterNext b.buf.length b.tail := by
  rw [pushBack_eq]; split <;> rfl

theorem head_pushBack {α : Type} (b : CircularBuffer α) (v : α) :
    (b.pushBack v).head =
      if iterNext b.buf.length b.tail = b.head then iterNext b.buf.length b.head
      else b.head := by
  rw [pushBack_eq]; split <;> simp_all

theorem length_pushBack {α : Type} (b : CircularBuffer α) (v : α) :
    (b.pushBack v).buf.length = b.buf.length := by
  rw [buf_pushBack, List.length_set]

theorem inv_pushBack {α : Type} {b : CircularBuffer α} (hb : b.Inv) (v : α) :
    (b.pushBack v).Inv := by
  obtain ⟨hh, ht⟩ := hb
  rw [pushBack_eq]
  split <;> constructor <;> simp only [List.length_set] <;>
    first
      | exact iterNext_lt hh
      | exact iterNext_lt ht
      | exact hh

theorem length_popFront {α : Type} (b : CircularBuffer α) :
    b.popFront.buf.length = b.buf.length := by
  rw [popFront_eq]; split <;> rfl

theorem tail_popFront {α : Type} (b : CircularBuffer α) :
    b.popFront.tail = b.tail := by
  rw [popFront_eq]; split <;> rfl

theorem inv_popFront {α : Type} {b : CircularBuffer α} (hb : b.Inv) :
    b.popFront.Inv := by
  obtain ⟨hh, ht⟩ := hb
  rw [popFront_eq]
  split
  · exact ⟨hh, ht⟩
  · exact ⟨iterNext_lt hh, ht⟩

theorem size_le_cap {α : Type} {b : CircularBuffer α} (hb : b.Inv) :
    b.size ≤ b.buf.length - 1 := by
  obtain ⟨hh, ht⟩ := hb
  rw [size_eq_wrapDist b (Nat.le_of_lt hh)]
  have := wrapDist_lt (a := b.head) ht
  omega

/-- The tail sits `size()` forward-steps after the head. -/
theorem tail_eq_head_add_size {α : Type} {b : CircularBuffer α} (hb : b.Inv) :
    b.tail = (b.head + b.size) % b.buf.length := by
  obtain ⟨hh, ht⟩ := hb
  rw [size_eq_wrapDist b (Nat.le_of_lt hh)]
  exact eq_add_wrapDist_mod hh ht

/-! ### Refinement: the operations tracked on the abstract element list -/

/-- `pushBack` acts on the abstract oldest-to-newest list as the model
push: append the value, dropping the oldest element when the buffer was at
capacity (block length minus the sentinel slot). -/
theorem absList_pushBack {α : Type} [Inhabited α] (b : CircularBuffer α)
    (v : α) (hb : b.Inv) :
    (b.pushBack v).absList = mpush (b.buf.length - 1) b.absList v := by
  obtain ⟨hh, ht⟩ := hb
  have hs : b.size = wrapDist b.buf.length b.head b.tail :=
    size_eq_wrapDist b (Nat.le_of_lt hh)
  have hslt : b.size < b.buf.length := by
    rw [hs]; exact wrapDist_lt ht
  have htEq : b.tail = (b.head + b.size) % b.buf.length :=
    tail_eq_head_add_size ⟨hh, ht⟩
  have hlen : b.absList.length = b.size := length_absList b
  by_cases hfull : iterNext b.buf.length b.tail = b.head
  · -- overflow: the advanced tail hits the head, `shiftFront` runs
    have hsfull : b.size = b.buf.length - 1 := by
      rw [hs]; exact (iterNext_eq_head_iff hh ht).mp hfull
    rw [pushBack_eq, if_pos hfull]
    unfold absList mpush
    simp only [List.length_set, List.length_map, List.length_range]
    rw [if_pos hsfull]
    have h1 : size ⟨b.buf.set b.tail v, iterNext b.buf.length b.head,
        iterNext b.buf.length b.tail⟩ = b.buf.length - 1 := by
      rw [size_eq_wrapDist _
        (by simp only [List.length_set]; exact Nat.le_of_lt (iterNext_lt hh))]
      simp only [List.length_set]
      rw [hfull]
      exact wrapDist_shiftFront hh
    rw [h1]
    by_cases hn1 : b.buf.length = 1
    · have hs0 : b.size = 0 := by omega
      rw [hn1, hs0]
      simp
    · have hn2 : 2 ≤ b.buf.length := by omega
      have hs1 : 1 ≤ b.size := by omega
      rw [List.drop_append_of_le_length (by
        simp only [List.length_map, List.length_range]; omega)]
      rw [map_range_drop _ b.size 1 hs1]
      have hsplit : b.buf.length - 1 = (b.size - 1) + 1 := by omega
      rw [hsplit, List.range_succ, List.map_append, List.map_cons,
        List.map_nil]
      congr 1
      · apply List.map_congr_left
        intro i hi
        simp only [List.mem_range] at hi
        rw [iterNext_eq_mod hh, Nat.mod_add_mod]
        have hadd : b.head + 1 + i = b.head + (1 + i) := by omega
        rw [hadd]
        have hne : b.tail ≠ (b.head + (1 + i)) % b.buf.length := by
          rw [htEq]
          intro hcon
          have := add_mod_inj hslt (by omega) hcon
          omega
        exact getD_set_ne b.buf hne v default
      · rw [iterNext_eq_mod hh, Nat.mod_add_mod]
        have hadd : b.head + 1 + (b.size - 1) = b.head + b.size := by omega
        rw [hadd, ← htEq]
        rw [getD_set_self b.buf v default ht]
  · -- no overflow: only the tail advances
    have hsize : size ⟨b.buf.set b.tail v, b.head,
        iterNext b.buf.length b.tail⟩ = b.size + 1 := by
      rw [size_eq_wrapDist _
        (by simp only [List.length_set]; exact Nat.le_of_lt hh)]
      simp only [List.length_set]
      rw [wrapDist_tail_step hh ht hfull, ← hs]
    rw [pushBack_eq, if_neg hfull]
    unfold absList mpush
    simp only [List.length_set, List.length_map, List.length_range]
    rw [hsize]
    have hsne : ¬ b.size = b.buf.length - 1 := by
      intro hcon
      exact hfull ((iterNext_eq_head_iff hh ht).mpr (by rw [← hs, hcon]))
    rw [if_neg hsne]
    rw [List.range_succ, List.map_append, List.map_cons, List.map_nil]
    congr 1
    · apply List.map_congr_left
      intro i hi
      simp only [List.mem_range] at hi
      have hne : b.tail ≠ (b.head + i) % b.buf.length := by
        rw [htEq]
        intro hcon
        have := add_mod_inj hslt (by omega) hcon
        omega
      exact getD_set_ne b.buf hne v default
    · rw [← htEq]
      rw [getD_set_self b.buf v default ht]

/-- `popFront` drops the oldest element from the abstract list (and is the
identity on the empty buffer). -/
theorem absList_popFront {α : Type} [Inhabited α] (b : CircularBuffer α)
    (hb : b.Inv) : b.popFront.absList = b.absList.drop 1 := by
  obtain ⟨hh, ht⟩ := hb
  have hs : b.size = wrapDist b.buf.length b.head b.tail :=
    size_eq_wrapDist b (Nat.le_of_lt hh)
  rw [popFront_eq]
  by_cases hempty : b.tail = b.head
  · rw [if_pos hempty]
    have hs0 : b.size = 0 := by
      rw [hs, hempty, wrapDist_self]
    have habs : b.absList = [] :=
      List.eq_nil_of_length_eq_zero (by rw [length_absList, hs0])
    rw [habs]
    rfl
  · rw [if_neg hempty]
    have hpos : 0 < b.size := by
      rw [hs]
      exact wrapDist_pos hh (fun hcon => hempty hcon.symm)
    have h1 : size ⟨b.buf, iterNext b.buf.length b.head, b.tail⟩
        = b.size - 1 := by
      rw [size_eq_wrapDist _ (Nat.le_of_lt (iterNext_lt hh))]
      rw [wrapDist_iterNext hh ht (fun hcon => hempty hcon.symm), ← hs]
    unfold absList
    simp only []
    rw [h1, map_range_drop _ b.size 1 hpos]
    apply List.map_congr_left
    intro i hi
    simp only [List.mem_range] at hi
    rw [iterNext_eq_mod hh, Nat.mod_add_mod]
    have hadd : b.head + 1 + i = b.head + (1 + i) := by omega
    rw [hadd]

/-! ### Model-level list lemmas -/

theorem mpush_eq_lastN {α : Type} (cap : Nat) (l : List α) (v : α)
    (h : l.length ≤ cap) : mpush cap l v = lastN cap (l ++ [v]) := by
  unfold mpush lastN
  simp only [List.length_append, List.length_cons, List.length_nil]
  split
  · rename_i hc
    congr 1
    omega
  · rename_i hc
    rw [Nat.sub_eq_zero_of_le (by omega), List.drop_zero]

theorem length_lastN {α : Type} (cap : Nat) (l : List α) :
    (lastN cap l).length = min cap l.length := by
  unfold lastN
  rw [List.length_drop]
  omega

theorem lastN_append_right {α : Type} (cap : Nat) (t w : List α)
    (hw : cap ≤ w.length) : lastN cap (t ++ w) = lastN cap w := by
  unfold lastN
  simp only [List.length_append]
  have h1 : t.length + w.length - cap = t.length + (w.length - cap) := by omega
  rw [h1, ← List.drop_drop, List.drop_left]

theorem lastN_lastN_append {α : Type} (cap : Nat) (y vs : List α) :
    lastN cap (lastN cap y ++ vs) = lastN cap (y ++ vs) := by
  rcases le_or_lt y.length cap with h | h
  · have h1 : lastN cap y = y := by
      unfold lastN
      rw [Nat.sub_eq_zero_of_le h, List.drop_zero]
    rw [h1]
  · have h1 : y = y.take (y.length - cap) ++ lastN cap y :=
      (List.take_append_drop _ y).symm
    have h2 : cap ≤ (lastN cap y ++ vs).length := by
      simp only [List.length_append, length_lastN]
      omega
    calc lastN cap (lastN cap y ++ vs)
        = lastN cap (y.take (y.length - cap) ++ (lastN cap y ++ vs)) :=
          (lastN_append_right cap _ _ h2).symm
      _ = lastN cap (y ++ vs) := by rw [← List.append_assoc, ← h1]

theorem length_mpush_le {α : Type} (cap : Nat) (l : List α) (v : α)
    (h : l.length ≤ cap) : (mpush cap l v).length ≤ cap := by
  unfold mpush
  split <;>
    simp only [List.length_append, List.length_cons, List.length_nil,
      List.length_drop] <;>
    omega

theorem mpushMany_eq_lastN {α : Type} (cap : Nat) :
    ∀ (vs l : List α), l.length ≤ cap →
      mpushMany cap l vs = lastN cap (l ++ vs)
  | [], l, h => by
      unfold mpushMany lastN
      simp only [List.foldl_nil, List.append_nil]
      rw [Nat.sub_eq_zero_of_le h, List.drop_zero]
  | v :: vs, l, h => by
      unfold mpushMany
      rw [List.foldl_cons]
      have ih := mpushMany_eq_lastN cap vs (mpush cap l v)
        (length_mpush_le cap l v h)
      unfold mpushMany at ih
      rw [ih, mpush_eq_lastN cap l v h, lastN_lastN_append,
        List.append_assoc, List.singleton_append]

/-! ### Buffer-level facts used by the claims -/

theorem mkBuffer_inv {α : Type} (d : α) (cap : Nat) : (mkBuffer d cap).Inv := by
  constructor <;> simp [mkBuffer]

theorem length_mkBuffer {α : Type} (d : α) (cap : Nat) :
    (mkBuffer d cap).buf.length = cap + 1 := by
  simp [mkBuffer]

theorem size_mkBuffer {α : Type} (d : α) (cap : Nat) :
    (mkBuffer d cap).size = 0 := by
  simp [mkBuffer, size]

theorem absList_mkBuffer {α : Type} [Inhabited α] (d : α) (cap : Nat) :
    (mkBuffer d cap).absList = [] := by
  unfold absList
  rw [size_mkBuffer]
  simp

/-- With valid cursors, `head == tail` is exactly `size() == 0`. -/
theorem head_eq_tail_iff_size {α : Type} {b : CircularBuffer α} (hb : b.Inv) :
    (b.head = b.tail ↔ b.size = 0) := by
  obtain ⟨hh, ht⟩ := hb
  unfold size
  split <;> omega

theorem iterPrev_iterNext {n pos : Nat} (h : pos < n) :
    iterPrev n (iterNext n pos) = pos := by
  unfold iterNext
  by_cases h1 : pos + 1 = n
  · rw [if_pos h1]
    unfold iterPrev
    rw [if_pos rfl]
    omega
  · rw [if_neg h1]
    unfold iterPrev
    rw [if_neg (by omega)]
    omega

theorem iterNext_iterPrev {n pos : Nat} (h : pos < n) :
    iterNext n (iterPrev n pos) = pos := by
  unfold iterPrev
  by_cases h1 : pos = 0
  · rw [if_pos h1]
    unfold iterNext
    rw [if_pos (by omega)]
    omega
  · rw [if_neg h1]
    unfold iterNext
    rw [if_neg (by omega)]
    omega

/-- `front()` is the first entry of the abstract list. -/
theorem front_eq_absList_head {α : Type} [Inhabited α] {b : CircularBuffer α}
    (hb : b.Inv) (hpos : 0 < b.size) : b.front = b.absList.getD 0 default := by
  obtain ⟨hh, ht⟩ := hb
  have h1 : b.absList.getD 0 default = b.buf.getD b.head default := by
    unfold absList
    rw [List.getD_eq_getElem _ _
      (by simp only [List.length_map, List.length_range]; omega)]
    rw [List.getElem_map, List.getElem_range, Nat.add_zero,
      Nat.mod_eq_of_lt hh]
  rw [h1]
  rfl

/-- Pushing then folding: invariant, block length and abstract list of a
whole push sequence. -/
theorem pushMany_props {α : Type} [Inhabited α] :
    ∀ (vs : List α) (b : CircularBuffer α), b.Inv →
      (b.pushMany vs).Inv ∧ (b.pushMany vs).buf.length = b.buf.length ∧
      (b.pushMany vs).absList = mpushMany (b.buf.length - 1) b.absList vs
  | [], b, hb => by
      unfold pushMany mpushMany
      exact ⟨hb, rfl, rfl⟩
  | v :: vs, b, hb => by
      unfold pushMany mpushMany
      rw [List.foldl_cons, List.foldl_cons]
      have hb1 := inv_pushBack hb v
      have ih := pushMany_props vs (b.pushBack v) hb1
      unfold pushMany mpushMany at ih
      refine ⟨ih.1, ?_, ?_⟩
      · rw [ih.2.1, length_pushBack]
      · rw [ih.2.2, absList_pushBack b v hb, length_pushBack]

/-- Any operation sequence preserves cursor validity and the block. -/
theorem applyOps_props {α : Type} :
    ∀ (ops : List (Op α)) (b : CircularBuffer α), b.Inv →
      (b.applyOps ops).Inv ∧ (b.applyOps ops).buf.length = b.buf.length
  | [], b, hb => ⟨hb, rfl⟩
  | op :: ops, b, hb => by
      unfold applyOps
      rw [List.foldl_cons]
      have hb1 : (b.applyOp op).Inv := by
        cases op with
        | push v => exact inv_pushBack hb v
        | pop => exact inv_popFront hb
      have ih := applyOps_props ops (b.applyOp op) hb1
      unfold applyOps at ih
      refine ⟨ih.1, ?_⟩
      rw [ih.2]
      cases op with
      | push v => exact length_pushBack b v
      | pop => exact length_popFront b

/-! ### `findNthRecent` / `mostRecent` -/

/-- The signed wrap computation of `findNthRecent`, restated over `Nat`. -/
theorem findNthRecent_eq_nat {α : Type} (b : CircularBuffer α) (k : Nat)
    (hb : b.Inv) :
    b.findNthRecent k =
      if min k b.size ≤ b.tail then b.tail - min k b.size
      else b.buf.length + b.tail - min k b.size := by
  obtain ⟨hh, ht⟩ := hb
  have hsn : b.size < b.buf.length := by
    rw [size_eq_wrapDist b (Nat.le_of_lt hh)]
    exact wrapDist_lt ht
  simp only [findNthRecent]
  split_ifs <;> omega

/-- Stepping forward `y < n` slots from `c % n` covers wrap distance `y`. -/
theorem wrapDist_mod_add (n c y : Nat) (hn : 0 < n) (hy : y < n) :
    wrapDist n (c % n) ((c + y) % n) = y := by
  have hu : c % n < n := Nat.mod_lt _ hn
  rw [← Nat.mod_add_mod]
  rcases lt_or_ge (c % n + y) n with h1 | h1
  · rw [Nat.mod_eq_of_lt h1]
    unfold wrapDist
    rw [if_pos (by omega)]
    omega
  · have h2 : (c % n + y) % n = c % n + y - n := by
      rw [Nat.mod_eq_sub_mod h1]
      exact Nat.mod_eq_of_lt (by omega)
    rw [h2]
    unfold wrapDist
    rw [if_neg (by omega)]
    omega

/-- The iterator returned by `findNthRecent` sits `size - min(k, size)`
forward-steps after the head. -/
theorem findNthRecent_eq_mod {α : Type} (b : CircularBuffer α) (k : Nat)
    (hb : b.Inv) :
    b.findNthRecent k =
      (b.head + (b.size - min k b.size)) % b.buf.length := by
  obtain ⟨hh, ht⟩ := hb
  have hs : b.size = wrapDist b.buf.length b.head b.tail :=
    size_eq_wrapDist b (Nat.le_of_lt hh)
  have hr : min k b.size ≤ b.size := Nat.min_le_right k b.size
  rw [findNthRecent_eq_nat b k ⟨hh, ht⟩]
  rcases le_or_lt b.head b.tail with h2 | h2
  · rw [wrapDist, if_pos h2] at hs
    rw [if_pos (by omega)]
    have h3 : b.head + (b.size - min k b.size) = b.tail - min k b.size := by
      omega
    rw [h3, Nat.mod_eq_of_lt (by omega)]
  · rw [wrapDist, if_neg (by omega)] at hs
    rcases le_or_lt (min k b.size) b.tail with h4 | h4
    · rw [if_pos h4]
      have h3 : b.head + (b.size - min k b.size)
          = b.buf.length + (b.tail - min k b.size) := by omega
      rw [h3, Nat.add_mod_left, Nat.mod_eq_of_lt (by omega)]
    · rw [if_neg (by omega)]
      have h3 : b.head + (b.size - min k b.size)
          = b.buf.length + b.tail - min k b.size := by omega
      rw [h3, Nat.mod_eq_of_lt (by omega)]

/-- The `mostRecent` range is the `min(k, size)`-element suffix of the
forward iteration. -/
theorem mostRecentList_eq_drop {α : Type} [Inhabited α] (b : CircularBuffer α)
    (k : Nat) (hb : b.Inv) :
    b.mostRecentList k = b.iterFromList.drop (b.size - k) := by
  obtain ⟨hh, ht⟩ := hb
  have hn : 0 < b.buf.length := by omega
  have hs : b.size = wrapDist b.buf.length b.head b.tail :=
    size_eq_wrapDist b (Nat.le_of_lt hh)
  have hsn : b.size < b.buf.length := by rw [hs]; exact wrapDist_lt ht
  have hr : min k b.size ≤ b.size := Nat.min_le_right k b.size
  have hj : b.size - k = b.size - min k b.size := by omega
  set r := min k b.size with hrdef
  set j := b.size - r with hjdef
  have hstart : b.findNthRecent k = (b.head + j) % b.buf.length :=
    findNthRecent_eq_mod b k ⟨hh, ht⟩
  have hstartlt : b.findNthRecent k < b.buf.length := by
    rw [hstart]; exact Nat.mod_lt _ hn
  have htc : b.tail = ((b.head + j) + r) % b.buf.length := by
    have h1 : b.head + j + r = b.head + b.size := by omega
    rw [h1]
    exact tail_eq_head_add_size ⟨hh, ht⟩
  have hdist : wrapDist b.buf.length (b.findNthRecent k) b.tail = r := by
    rw [hstart, htc]
    exact wrapDist_mod_add b.buf.length (b.head + j) r hn (by omega)
  unfold mostRecentList iterFromList
  rw [iterFrom_eq b.buf b.tail ht b.buf.length (b.findNthRecent k) hstartlt
    (by rw [hdist]; omega)]
  rw [iterFrom_eq b.buf b.tail ht b.buf.length b.head hh
    (Nat.le_of_lt (wrapDist_lt ht))]
  rw [hdist, ← hs, hj]
  rw [map_range_drop _ b.size j (by omega)]
  have hsz : b.size - j = r := by omega
  rw [hsz]
  apply List.map_congr_left
  intro i hi
  rw [hstart, Nat.mod_add_mod]
  have h5 : b.head + j + i = b.head + (j + i) := by omega
  rw [h5]

/-! ### Heap-level lemmas -/

theorem heapApplyOp_block {α : Type} (s : List (List α) × HBuf) (op : Op α) :
    (heapApplyOp s op).2.block = s.2.block := rfl

theorem heapApplyOps_getD {α : Type} :
    ∀ (ops : List (Op α)) (s : List (List α) × HBuf) (j : Nat),
      j ≠ s.2.block →
      (heapApplyOps s ops).1.getD j [] = s.1.getD j []
  | [], _, _, _ => rfl
  | op :: ops, s, j, hj => by
      unfold heapApplyOps
      rw [List.foldl_cons]
      have ih := heapApplyOps_getD ops (heapApplyOp s op) j
        (by rw [heapApplyOp_block]; exact hj)
      unfold heapApplyOps at ih
      rw [ih]
      unfold heapApplyOp
      exact getD_set_ne s.1 (Ne.symm hj) _ _

/-! ### The claims -/

/-- Claim C1: starting from a fresh buffer of capacity `cap` and pushing any
value sequence with no pops, `size() ≤ cap` holds, and once at least `cap`
values have been pushed, `size() = cap` and iterating `begin()` to `end()`
yields exactly the last `cap` pushed values, oldest to newest. -/
theorem pushOnly_capacity {α : Type} [Inhabited α] (d : α) (cap : Nat)
    (vs : List α) :
    ((mkBuffer d cap).pushMany vs).size ≤ cap ∧
    (cap ≤ vs.length →
      ((mkBuffer d cap).pushMany vs).size = cap ∧
      ((mkBuffer d cap).pushMany vs).iterFromList
        = vs.drop (vs.length - cap)) := by
  obtain ⟨hinv, hlen, habs⟩ :=
    pushMany_props vs (mkBuffer d cap) (mkBuffer_inv d cap)
  rw [absList_mkBuffer, length_mkBuffer] at habs
  simp only [Nat.add_sub_cancel] at habs
  rw [mpushMany_eq_lastN cap vs [] (by simp), List.nil_append] at habs
  have hsz : ((mkBuffer d cap).pushMany vs).size = (lastN cap vs).length := by
    rw [← length_absList, habs]
  rw [length_lastN] at hsz
  constructor
  · omega
  · intro hk
    refine ⟨by omega, ?_⟩
    rw [iterFromList_eq_absList _ hinv, habs]
    rfl

theorem pushOnly_capacity_witness :
    ((mkBuffer (0:Nat) 2).pushMany [1,2,3]).size = 2 ∧
    ((mkBuffer (0:Nat) 2).pushMany [1,2,3]).iterFromList = [2,3] :=
  (pushOnly_capacity 0 2 [1,2,3]).2 (by decide)

/-- Claim C2: `pushBack(v)` writes `v` into the slot at the old tail; right
after the call both the written slot and `back()` hold `v`; the tail
advances one slot with wrap; and when the advanced tail equals the head,
the head advances one slot (with wrap) as well. -/
theorem pushBack_spec {α : Type} [Inhabited α] (b : CircularBuffer α) (v : α)
    (hb : b.Inv) :
    (b.pushBack v).buf.getD b.tail default = v ∧
    (b.pushBack v).back = v ∧
    (b.pushBack v).tail = iterNext b.buf.length b.tail ∧
    (b.pushBack v).head =
      (if iterNext b.buf.length b.tail = b.head
       then iterNext b.buf.length b.head else b.head) := by
  obtain ⟨hh, ht⟩ := hb
  refine ⟨?_, ?_, tail_pushBack b v, head_pushBack b v⟩
  · rw [buf_pushBack]
    exact getD_set_self b.buf v default ht
  · unfold back
    rw [buf_pushBack, tail_pushBack, List.length_set, iterPrev_iterNext ht]
    exact getD_set_self b.buf v default ht

theorem pushBack_spec_witness :
    ((⟨[10,20,30],0,2⟩ : CircularBuffer Nat).pushBack 7).buf.getD 2 default
        = 7 ∧
    ((⟨[10,20,30],0,2⟩ : CircularBuffer Nat).pushBack 7).back = 7 ∧
    ((⟨[10,20,30],0,2⟩ : CircularBuffer Nat).pushBack 7).tail = iterNext 3 2 ∧
    ((⟨[10,20,30],0,2⟩ : CircularBuffer Nat).pushBack 7).head =
      (if iterNext 3 2 = 0 then iterNext 3 0 else 0) :=
  pushBack_spec ⟨[10,20,30],0,2⟩ 7 (by decide)

/-- Claim C3: the range `[findNthRecent(k), end())` — the `mostRecent(k)`
view — holds exactly `min(k, size())` elements, namely the most recent ones
oldest-to-newest (a suffix of the forward iteration); `k = 0` yields the
empty range and any `k ≥ size()` yields the full logical content. -/
theorem mostRecent_clamp {α : Type} [Inhabited α] (b : CircularBuffer α)
    (k : Nat) (hb : b.Inv) :
    (b.mostRecentList k).length = min k b.size ∧
    b.mostRecentList k = b.iterFromList.drop (b.size - k) ∧
    b.mostRecentList 0 = [] ∧
    (b.size ≤ k → b.mostRecentList k = b.iterFromList) := by
  have h1 := mostRecentList_eq_drop b k hb
  have hlen : b.iterFromList.length = b.size := by
    rw [iterFromList_eq_absList b hb, length_absList]
  refine ⟨?_, h1, ?_, ?_⟩
  · rw [h1, List.length_drop, hlen]
    omega
  · rw [mostRecentList_eq_drop b 0 hb, Nat.sub_zero]
    exact List.drop_eq_nil_of_le hlen.le
  · intro hk
    rw [h1, Nat.sub_eq_zero_of_le hk, List.drop_zero]

theorem mostRecent_clamp_witness :
    ((⟨[0,1,2,3],1,0⟩ : CircularBuffer Nat).mostRecentList 2).length
        = min 2 (⟨[0,1,2,3],1,0⟩ : CircularBuffer Nat).size ∧
    (⟨[0,1,2,3],1,0⟩ : CircularBuffer Nat).mostRecentList 2
        = (⟨[0,1,2,3],1,0⟩ : CircularBuffer Nat).iterFromList.drop
            ((⟨[0,1,2,3],1,0⟩ : CircularBuffer Nat).size - 2) ∧
    (⟨[0,1,2,3],1,0⟩ : CircularBuffer Nat).mostRecentList 0 = [] ∧
    ((⟨[0,1,2,3],1,0⟩ : CircularBuffer Nat).size ≤ 2 →
      (⟨[0,1,2,3],1,0⟩ : CircularBuffer Nat).mostRecentList 2
        = (⟨[0,1,2,3],1,0⟩ : CircularBuffer Nat).iterFromList) :=
  mostRecent_clamp ⟨[0,1,2,3],1,0⟩ 2 (by decide)

/-- Claim C4: every state reachable from a fresh buffer through `pushBack`
and `popFront` keeps both cursors inside the block, has `head == tail`
exactly when no elements are live, and its `size()` is the forward wrapping
distance from head to tail. -/
theorem reachable_inv {α : Type} (d : α) (cap : Nat) (ops : List (Op α)) :
    ((mkBuffer d cap).applyOps ops).Inv ∧
    (((mkBuffer d cap).applyOps ops).head = ((mkBuffer d cap).applyOps ops).tail
      ↔ ((mkBuffer d cap).applyOps ops).size = 0) ∧
    ((mkBuffer d cap).applyOps ops).size =
      (if ((mkBuffer d cap).applyOps ops).head
            ≤ ((mkBuffer d cap).applyOps ops).tail
       then ((mkBuffer d cap).applyOps ops).tail
          - ((mkBuffer d cap).applyOps ops).head
       else (((mkBuffer d cap).applyOps ops).buf.length
              - ((mkBuffer d cap).applyOps ops).head)
          + (((mkBuffer d cap).applyOps ops).tail - 0)) := by
  obtain ⟨hinv, hlen⟩ := applyOps_props ops (mkBuffer d cap) (mkBuffer_inv d cap)
  refine ⟨hinv, head_eq_tail_iff_size hinv, ?_⟩
  unfold size
  split_ifs <;> omega

/-- Claim C5: `popFront()` on an empty buffer changes nothing at all. -/
theorem popFront_empty_noop {α : Type} (b : CircularBuffer α) (hb : b.Inv)
    (hsz : b.size = 0) : b.popFront = b := by
  rw [popFront_eq, if_pos ((head_eq_tail_iff_size hb).mpr hsz).symm]

theorem popFront_empty_noop_witness :
    (mkBuffer (0:Nat) 2).popFront = mkBuffer 0 2 :=
  popFront_empty_noop (mkBuffer 0 2) (by decide) (by decide)

/-- Claim C6: walking `begin()` to `end()` with `operator++` visits exactly
`size()` elements, and walking `end()` back toward `begin()` with
`operator--` visits the same elements in the reversed order. -/
theorem iteration_law {α : Type} [Inhabited α] (b : CircularBuffer α)
    (hb : b.Inv) :
    b.iterFromList.length = b.size ∧
    b.iterBackList = b.iterFromList.reverse := by
  refine ⟨?_, iterBackList_eq_reverse b hb⟩
  rw [iterFromList_eq_absList b hb, length_absList]

theorem iteration_law_witness :
    (⟨[10,20,30,40],2,1⟩ : CircularBuffer Nat).iterFromList.length
        = (⟨[10,20,30,40],2,1⟩ : CircularBuffer Nat).size ∧
    (⟨[10,20,30,40],2,1⟩ : CircularBuffer Nat).iterBackList
        = (⟨[10,20,30,40],2,1⟩ : CircularBuffer Nat).iterFromList.reverse :=
  iteration_law ⟨[10,20,30,40],2,1⟩ (by decide)

/-- Claim C7: pushing into a full buffer (at least two elements of
capacity) evicts exactly the oldest element, so the new `front()` is the
previously second-oldest element. -/
theorem eviction_fifo {α : Type} [Inhabited α] (b : CircularBuffer α) (v : α)
    (hb : b.Inv) (hful : b.size = b.buf.length - 1)
    (hcap : 2 ≤ b.buf.length - 1) :
    (b.pushBack v).front = b.absList.getD 1 default := by
  have hb' := inv_pushBack hb v
  have habs : (b.pushBack v).absList = (b.absList ++ [v]).drop 1 := by
    rw [absList_pushBack b v hb]
    unfold mpush
    rw [if_pos (by rw [length_absList, hful])]
  have hlen : b.absList.length = b.size := length_absList b
  have hsz' : 0 < (b.pushBack v).size := by
    rw [← length_absList, habs]
    simp only [List.length_drop, List.length_append, List.length_cons,
      List.length_nil]
    omega
  rw [front_eq_absList_head hb' hsz', habs]
  rw [List.getD_eq_getElem?_getD, List.getElem?_drop,
    List.getElem?_append_left (by omega), ← List.getD_eq_getElem?_getD]

theorem eviction_fifo_witness :
    ((⟨[10,20,30,40],0,3⟩ : CircularBuffer Nat).pushBack 7).front
      = (⟨[10,20,30,40],0,3⟩ : CircularBuffer Nat).absList.getD 1 default :=
  eviction_fifo ⟨[10,20,30,40],0,3⟩ 7 (by decide) (by decide) (by decide)

/-- Claim C8: self-copy assignment and self-move assignment are no-ops:
the buffer keeps its `size()` and its `begin()`-to-`end()` element
sequence exactly. -/
theorem self_assign_noop {α : Type} [Inhabited α] (b : CircularBuffer α) :
    b.selfCopyAssign.size = b.size ∧
    b.selfCopyAssign.iterFromList = b.iterFromList ∧
    b.selfMoveAssign.size = b.size ∧
    b.selfMoveAssign.iterFromList = b.iterFromList := by
  have h1 : b.selfMoveAssign = b := rfl
  have h2 : b.selfCopyAssign = b := rfl
  rw [h1, h2]
  exact ⟨rfl, rfl, rfl, rfl⟩

/-- Claim C9: after copy-constructing `b2` from `b1`, any sequence of
pushes and pops applied to `b1` leaves the block observed through `b2`
untouched: the copy owns an independent storage block. -/
theorem copy_independent {α : Type} [Inhabited α] (heap : List (List α))
    (b1 : HBuf) (ops : List (Op α)) (hlt : b1.block < heap.length) :
    (heapGet (heapApplyOps ((heapCopy heap b1).1, b1) ops).1
        (heapCopy heap b1).2).size
      = (heapGet (heapCopy heap b1).1 (heapCopy heap b1).2).size ∧
    (heapGet (heapApplyOps ((heapCopy heap b1).1, b1) ops).1
        (heapCopy heap b1).2).iterFromList
      = (heapGet (heapCopy heap b1).1 (heapCopy heap b1).2).iterFromList := by
  have hkey : heapGet (heapApplyOps ((heapCopy heap b1).1, b1) ops).1
      (heapCopy heap b1).2 = heapGet (heapCopy heap b1).1 (heapCopy heap b1).2 := by
    unfold heapGet
    have hne : (heapCopy heap b1).2.block ≠ b1.block := by
      simp only [heapCopy]
      omega
    rw [heapApplyOps_getD ops ((heapCopy heap b1).1, b1)
      (heapCopy heap b1).2.block hne]
  rw [hkey]
  exact ⟨rfl, rfl⟩

theorem copy_independent_witness :
    (heapGet (heapApplyOps ((heapCopy [[1,2,3]] ⟨0,0,1⟩).1, ⟨0,0,1⟩)
        [Op.push 9, Op.pop]).1 (heapCopy [[1,2,3]] ⟨0,0,1⟩).2).size
      = (heapGet (heapCopy [[1,2,3]] ⟨0,0,1⟩).1
          (heapCopy [[1,2,3]] (⟨0,0,1⟩ : HBuf)).2).size ∧
    (heapGet (heapApplyOps ((heapCopy [[1,2,3]] ⟨0,0,1⟩).1, ⟨0,0,1⟩)
        [Op.push 9, Op.pop]).1 (heapCopy [[1,2,3]] ⟨0,0,1⟩).2).iterFromList
      = (heapGet (heapCopy [[1,2,3]] ⟨0,0,1⟩).1
          (heapCopy [[1,2,3]] (⟨0,0,1⟩ : HBuf)).2).iterFromList :=
  copy_independent [[1,2,3]] ⟨0,0,1⟩ [Op.push 9, Op.pop] (by decide)

/-- Claim C10: on any in-bounds iterator position, `operator++` followed by
`operator--` — and `operator--` followed by `operator++` — returns the
iterator to its original position. -/
theorem iter_inc_dec_inverse (it : IteratorImpl)
    (h1 : it.bufferBegin ≤ it.current) (h2 : it.current < it.bufferEnd) :
    it.inc.dec = it ∧ it.dec.inc = it := by
  obtain ⟨bb, be, c⟩ := it
  simp only [IteratorImpl.inc, IteratorImpl.dec] at *
  constructor
  · split_ifs <;> simp_all <;> omega
  · split_ifs <;> simp_all <;> omega

theorem iter_inc_dec_inverse_witness :
    (⟨0,3,1⟩ : IteratorImpl).inc.dec = ⟨0,3,1⟩ ∧
    (⟨0,3,1⟩ : IteratorImpl).dec.inc = ⟨0,3,1⟩ :=
  iter_inc_dec_inverse ⟨0,3,1⟩ (by decide) (by decide)

end CircularBuffer

end CircBuf
